/-
Verification of the dgstools repository (CSV spreadsheet ingestion and
TA-assignment processing scripts).

The Python sources are shallowly embedded: each relevant Python function
becomes a Lean definition over explicit data (parsed CSV rows as lists of
strings, Python dictionaries as association lists in insertion order,
fallible Python code as Option/Except).  Theorems then settle the frozen
claims about those definitions.
-/

import Mathlib

/-! ## Python string primitives

Models of the Python `str` methods used by the scripts, restricted to the
ASCII text that the spreadsheet reader produces.  Python's `str.strip()` and
`str.split()` treat the six ASCII characters below as whitespace. -/

/-- Whitespace test used by Python `str.strip()` / `str.split()` on ASCII text. -/
def pyIsSpace (c : Char) : Bool :=
  c = ' ' || c = '\t' || c = '\n' || c = '\r' || c = '\x0b' || c = '\x0c'

/-- Python `s.strip()`: drop leading and trailing whitespace. -/
def pyStrip (s : String) : String :=
  String.mk (((s.data.dropWhile pyIsSpace).reverse.dropWhile pyIsSpace).reverse)

/-- Worker for `pySplit`: scan the characters, accumulating the current word
(in reverse) in `acc`; whitespace ends a word, and empty words are dropped,
exactly as Python `str.split()` with no argument behaves. -/
def pySplitAux : List Char → List Char → List String
  | [], acc => if acc = [] then [] else [String.mk acc.reverse]
  | c :: cs, acc =>
    if pyIsSpace c then
      if acc = [] then pySplitAux cs [] else String.mk acc.reverse :: pySplitAux cs []
    else
      pySplitAux cs (c :: acc)

/-- Python `s.split()` (no separator argument): split on runs of whitespace,
dropping empty tokens. -/
def pySplit (s : String) : List String :=
  pySplitAux s.data []

/-- Python `s[-1]` on a string, made total: `none` models the `IndexError`
raised on the empty string. -/
def strLast (s : String) : Option Char :=
  s.data.getLast?

/-! ## process-students.py: name regularization -/

/-- Embedding of `regularize_name` from `process-students.py`.

Python source logic:
  tokens = name.split()
  if len(tokens) == 1: return name
  elif tokens[0][-1] == ",": return " ".join(tokens)
  elif tokens[0] in salutation_set: return "{}, {}".format(tokens[-1], " ".join(tokens[1:-1]))
  else: return "{}, {}".format(tokens[-1], " ".join(tokens[0:-1]))

`none` models an uncaught exception: `tokens[0]` raises `IndexError` when
the split token list is empty (blank input).  The inner `getLast?` fallbacks
are unreachable (the token list has length at least 2 there). -/
def regularize_name (name : String) (salutation_set : List String) :
    Option String :=
  let tokens := pySplit name
  if tokens.length = 1 then
    some name
  else
    match tokens with
    | [] => none
    | t0 :: rest =>
      match strLast t0 with
      | none => none
      | some c =>
        if c = ',' then
          some (" ".intercalate (t0 :: rest))
        else if t0 ∈ salutation_set then
          match (t0 :: rest).getLast? with
          | none => none
          | some lastTok =>
            some (lastTok ++ ", " ++ " ".intercalate (((t0 :: rest).drop 1).dropLast))
        else
          match (t0 :: rest).getLast? with
          | none => none
          | some lastTok =>
            some (lastTok ++ ", " ++ " ".intercalate ((t0 :: rest).dropLast))

/-- Embedding of `read_faculty` from `process-students.py`, over the list of
lines of the input file: `list(map(regularize_name, faculty_list))`, with
`none` propagating an exception raised on any line. -/
def read_faculty : List String → Option (List String)
  | [] => some []
  | line :: rest => do
    let r ← regularize_name line ["Prof."]
    let rs ← read_faculty rest
    pure (r :: rs)

/-! ### Structural lemmas about `pySplit` -/

theorem pySplitAux_eq_nil (l : List Char) (acc : List Char) :
    pySplitAux l acc = [] ↔ (∀ c ∈ l, pyIsSpace c) ∧ acc = [] := by
  induction l generalizing acc with
  | nil =>
    by_cases h : acc = [] <;> simp [pySplitAux, h]
  | cons c cs ih =>
    by_cases hc : pyIsSpace c
    · by_cases h : acc = []
      · simp [pySplitAux, hc, h, ih]
      · simp [pySplitAux, hc, h]
    · simp [pySplitAux, hc, ih]

theorem pySplitAux_tokens_ne_nil (l : List Char) (acc : List Char) :
    ∀ t ∈ pySplitAux l acc, t ≠ "" := by
  induction l generalizing acc with
  | nil =>
    intro t ht
    by_cases h : acc = []
    · simp [pySplitAux, h] at ht
    · simp [pySplitAux, h] at ht
      subst ht
      simpa [String.ext_iff] using fun hrev => h (by simpa using hrev)
  | cons c cs ih =>
    intro t ht
    by_cases hc : pyIsSpace c
    · by_cases h : acc = []
      · exact ih [] t (by simpa [pySplitAux, hc, h] using ht)
      · simp [pySplitAux, hc, h] at ht
        rcases ht with ht | ht
        · subst ht
          simpa [String.ext_iff] using fun hrev => h (by simpa using hrev)
        · exact ih [] t ht
    · exact ih (c :: acc) t (by simpa [pySplitAux, hc] using ht)

theorem pySplit_eq_nil (s : String) :
    pySplit s = [] ↔ ∀ c ∈ s.data, pyIsSpace c := by
  simp [pySplit, pySplitAux_eq_nil]

theorem pySplit_tokens_ne_nil (s : String) : ∀ t ∈ pySplit s, t ≠ "" :=
  pySplitAux_tokens_ne_nil s.data []

theorem getLast?_cons_concat {α : Type*} (x : α) (l : List α) (a : α) :
    (x :: (l ++ [a])).getLast? = some a := by
  rw [← List.cons_append]
  exact List.getLast?_concat _

theorem dropLast_cons_concat {α : Type*} (x : α) (l : List α) (a : α) :
    (x :: (l ++ [a])).dropLast = x :: l := by
  rw [← List.cons_append]
  exact List.dropLast_concat

theorem strLast_isSome_of_ne_empty {s : String} (h : s ≠ "") :
    ∃ c, strLast s = some c := by
  have hd : s.data ≠ [] := by
    intro hnil
    exact h (by cases s; simp_all)
  rw [← Option.isSome_iff_exists]
  simpa [strLast] using (List.getLast?_isSome).2 hd

theorem regularize_name_isSome_iff (name : String) :
    (regularize_name name ["Prof."]).isSome ↔ ∃ c ∈ name.data, ¬ pyIsSpace c := by
  constructor
  · intro hsome
    by_contra hx
    push_neg at hx
    have h0 : pySplit name = [] := (pySplit_eq_nil name).2 (by simpa using hx)
    simp [regularize_name, h0] at hsome
  · intro hex
    cases hsplit : pySplit name with
    | nil =>
      obtain ⟨c, hc, hcs⟩ := hex
      exact absurd ((pySplit_eq_nil name).1 hsplit c hc) (by simpa using hcs)
    | cons t0 rest =>
      by_cases hlen : (t0 :: rest).length = 1
      · simp [regularize_name, hsplit, hlen]
      · have hrest : rest ≠ [] := fun e => hlen (by simp [e])
        have ht0 : t0 ≠ "" :=
          pySplit_tokens_ne_nil name t0 (hsplit ▸ List.mem_cons_self t0 rest)
        obtain ⟨c0, hc0⟩ := strLast_isSome_of_ne_empty ht0
        obtain ⟨lt, hlt⟩ : ∃ x, (t0 :: rest).getLast? = some x := by
          rw [← Option.isSome_iff_exists]
          exact (List.getLast?_isSome).2 (by simp)
        by_cases hcomma : c0 = ','
        · simp [regularize_name, hsplit, hlen, hrest, hc0, hcomma]
        · by_cases hsal : t0 = "Prof."
          · subst hsal
            simp [regularize_name, hsplit, hlen, hrest, hc0, hcomma, hlt]
          · simp [regularize_name, hsplit, hlen, hrest, hc0, hcomma, hsal, hlt]

theorem read_faculty_isSome_iff (lines : List String) :
    (read_faculty lines).isSome ↔ ∀ line ∈ lines, ∃ c ∈ line.data, ¬ pyIsSpace c := by
  induction lines with
  | nil => simp [read_faculty]
  | cons l ls ih =>
    cases hl : regularize_name l ["Prof."] with
    | none =>
      have hnl : ¬ ∃ c ∈ l.data, ¬ pyIsSpace c := by
        rw [← regularize_name_isSome_iff]
        simp [hl]
      have hfalse : read_faculty (l :: ls) = none := by simp [read_faculty, hl]
      rw [hfalse]
      simp only [Option.isSome_none, Bool.false_eq_true, false_iff]
      intro hall
      exact hnl (hall l (List.mem_cons_self l ls))
    | some v =>
      have hv : ∃ c ∈ l.data, ¬ pyIsSpace c := by
        rw [← regularize_name_isSome_iff]
        simp [hl]
      cases hr : read_faculty ls with
      | none =>
        have hfalse : read_faculty (l :: ls) = none := by simp [read_faculty, hl, hr]
        have htail : ¬ ∀ line ∈ ls, ∃ c ∈ line.data, ¬ pyIsSpace c := by
          rw [← ih]
          simp [hr]
        rw [hfalse]
        simp only [Option.isSome_none, Bool.false_eq_true, false_iff]
        intro hall
        exact htail (fun line hline => hall line (List.mem_cons_of_mem l hline))
      | some vs =>
        have htrue : read_faculty (l :: ls) = some (v :: vs) := by
          simp [read_faculty, hl, hr]
        have htail : ∀ line ∈ ls, ∃ c ∈ line.data, ¬ pyIsSpace c := by
          rw [← ih]
          simp [hr]
        rw [htrue]
        simp only [Option.isSome_some, true_iff]
        intro line hline
        rcases List.mem_cons.1 hline with rfl | hmem
        · exact hv
        · exact htail line hmem

/-- C6: `regularize_name` maps 'First [Middle] Last' and
'Prof. First [Middle] Last' to the last-name-first form 'Last, First [Middle]',
and leaves one-word special names and names already of the form
'Last, First [Middle]' unchanged up to whitespace normalization (a one-word
name is returned verbatim; a 'Last, First [Middle]' name is returned as the
space-join of its whitespace-split tokens). -/
theorem claim_C6_regularize_name :
    (∀ name w, pySplit name = [w] → regularize_name name ["Prof."] = some name) ∧
    (∀ name t0 t1 rest, pySplit name = t0 :: t1 :: rest → strLast t0 = some ',' →
      regularize_name name ["Prof."] = some (" ".intercalate (t0 :: t1 :: rest))) ∧
    (∀ name first mid lastn, pySplit name = "Prof." :: first :: (mid ++ [lastn]) →
      regularize_name name ["Prof."] = some (lastn ++ ", " ++ " ".intercalate (first :: mid))) ∧
    (∀ name first mid lastn, pySplit name = first :: (mid ++ [lastn]) →
      strLast first ≠ some ',' → first ≠ "Prof." →
      regularize_name name ["Prof."] = some (lastn ++ ", " ++ " ".intercalate (first :: mid))) := by
  refine ⟨?_, ?_, ?_, ?_⟩
  · intro name w h
    simp [regularize_name, h]
  · intro name t0 t1 rest h hcomma
    simp [regularize_name, h, hcomma]
  · intro name first mid lastn h
    have hlast : ("Prof." :: first :: (mid ++ [lastn])).getLast? = some lastn := by
      rw [show ("Prof." :: first :: (mid ++ [lastn])) = "Prof." :: ((first :: mid) ++ [lastn]) by simp]
      exact getLast?_cons_concat _ _ _
    have hdl : (first :: (mid ++ [lastn])).dropLast = first :: mid :=
      dropLast_cons_concat _ _ _
    have hpro : strLast "Prof." = some '.' := rfl
    simp [regularize_name, h, hpro, hlast, hdl]
  · intro name first mid lastn h hcomma hprof
    have hfirst : first ≠ "" :=
      pySplit_tokens_ne_nil name first (h ▸ List.mem_cons_self first (mid ++ [lastn]))
    obtain ⟨c0, hc0⟩ := strLast_isSome_of_ne_empty hfirst
    have hcne : c0 ≠ ',' := by
      intro e
      exact hcomma (e ▸ hc0)
    have hlast : (first :: (mid ++ [lastn])).getLast? = some lastn :=
      getLast?_cons_concat _ _ _
    have hdl : (first :: (mid ++ [lastn])).dropLast = first :: mid :=
      dropLast_cons_concat _ _ _
    simp [regularize_name, h, hc0, hcne, hprof, hlast, hdl]

/-- Witness for C6 at concrete names of each handled form. -/
theorem claim_C6_regularize_name_witness :
    regularize_name "John Quincy Smith" ["Prof."] = some "Smith, John Quincy" ∧
    regularize_name "Prof. Jane Doe" ["Prof."] = some "Doe, Jane" ∧
    regularize_name "DGS" ["Prof."] = some "DGS" ∧
    regularize_name "Smith,  John" ["Prof."] = some "Smith, John" := by
  refine ⟨?_, ?_, ?_, ?_⟩
  · exact (claim_C6_regularize_name.2.2.2 "John Quincy Smith" "John" ["Quincy"] "Smith"
      (by decide) (by decide) (by decide)).trans (by decide)
  · exact (claim_C6_regularize_name.2.2.1 "Prof. Jane Doe" "Jane" [] "Doe"
      (by decide)).trans (by decide)
  · exact claim_C6_regularize_name.1 "DGS" "DGS" (by decide)
  · exact (claim_C6_regularize_name.2.1 "Smith,  John" "Smith," "John" []
      (by decide) (by decide)).trans (by decide)

/-- C10: `regularize_name` succeeds exactly on inputs containing at least one
non-whitespace character (on blank input the token list is empty and the
`tokens[0][-1]` access has no defined result), and `read_faculty` succeeds
exactly when every input line is non-blank. -/
theorem claim_C10_regularize_name_total :
    (∀ name : String,
      (regularize_name name ["Prof."]).isSome ↔ ∃ c ∈ name.data, ¬ pyIsSpace c) ∧
    (∀ lines : List String,
      (read_faculty lines).isSome ↔ ∀ line ∈ lines, ∃ c ∈ line.data, ¬ pyIsSpace c) :=
  ⟨regularize_name_isSome_iff, read_faculty_isSome_iff⟩

/-! ## spreadsheet.py: cell values, Python dictionaries, CSV reading

The CSV layer is embedded at the level of parsed rows: a CSV input file is
a list of rows, each row the list of its cell strings.  A cell value inside
a record is a Python value: `None` (missing field, from `restval`), a string,
an integer (after postprocessing such as `int(record["quota"])`), or the list
of raw trailing cell strings that `csv.DictReader` aggregates under its
`restkey` (`None`).  Records are Python dictionaries in insertion order,
embedded as association lists. -/

inductive Entry where
  | null : Entry
  | str (s : String) : Entry
  | int (n : Int) : Entry
  | list (l : List String) : Entry
deriving DecidableEq, Repr

/-- Test whether a Python value is a string. -/
def Entry.isStr : Entry → Bool
  | .str _ => true
  | _ => false

/-- A Python dictionary key in a record: a declared field name, or the
Python `None` used by `csv.DictReader` as its default `restkey`. -/
abbrev FieldKey := Option String

/-- A record: a Python dictionary in insertion order. -/
abbrev Record := List (FieldKey × Entry)

/-- Python dictionary lookup `d[k]`, as an `Option` (a `none` result models
a `KeyError`). -/
def dictGet (d : Record) (k : FieldKey) : Option Entry :=
  (d.find? (fun p => p.1 == k)).map (fun p => p.2)

/-- Python dictionary assignment `d[k] = v`: update the value in place if
the key is present, else append the new key in insertion order. -/
def dictSet : Record → FieldKey → Entry → Record
  | [], k, v => [(k, v)]
  | p :: ps, k, v => if p.1 == k then (p.1, v) :: ps else p :: dictSet ps k v

/-- Python `dict(pairs)`: successive assignment of each pair into an
initially empty dictionary. -/
def pyDictOfPairs (ps : List (FieldKey × Entry)) : Record :=
  ps.foldl (fun d p => dictSet d p.1 p.2) []

/-- Python single-character `str.replace`, character list level: replace each
occurrence of `old` by the string `new`. -/
def pyReplaceCharList (old : Char) (new : List Char) : List Char → List Char
  | [] => []
  | c :: cs => (if c = old then new else [c]) ++ pyReplaceCharList old new cs

/-- The string branch of `clean_up` from `spreadsheet.py`:
`entry.strip()`, then, when `replace_newlines` holds,
`.replace("\n", " | ")`. -/
def clean_str (s : String) (replace_newlines : Bool) : String :=
  let cleaned := pyStrip s
  if replace_newlines then String.mk (pyReplaceCharList '\n' " | ".data cleaned.data)
  else cleaned

/-- Embedding of `clean_up` from `spreadsheet.py`.

An empty (`None`) field stays `None`; a list (the `restkey` aggregation of
trailing cells, which in this program always holds raw cell strings) is
handled by `list(map(clean_up, entry))` — a recursive call with the DEFAULT
`replace_newlines=True`, so each element is cleaned as a string with newline
replacement forced on; a string is stripped and optionally has its newlines
replaced.  (An `int` never reaches `clean_up`; the source would raise
`AttributeError` on it.) -/
def clean_up : Entry → Bool → Entry
  | .null, _ => .null
  | .list l, _ => .list (l.map (fun s => clean_str s true))
  | .str s, replace_newlines => .str (clean_str s replace_newlines)
  | .int n, _ => .int n

/-- One row of `csv.DictReader` from `spreadsheet.py`'s use of it:
`d = dict(zip(fieldnames, row))`; if the row is longer than the field list
the extra cells are aggregated in a list under the `restkey` (`None`); if it
is shorter, the missing fields are set to `restval`. -/
def dictReaderRow (fieldnames : List String) (restval : Entry) (row : List String) : Record :=
  let d := pyDictOfPairs ((fieldnames.map some).zip (row.map Entry.str))
  if fieldnames.length < row.length then
    dictSet d none (Entry.list (row.drop fieldnames.length))
  else
    (fieldnames.drop row.length).foldl (fun d f => dictSet d (some f) restval) d

/-- Embedding of `read_spreadsheet_dictionary` from `spreadsheet.py`, over the
parsed rows of the (already cleaned) input stream: each non-blank row (blank
rows are skipped by `csv.DictReader`) becomes a record, and every value of
the record is passed through `clean_up` with the given `replace_newlines`. -/
def read_spreadsheet_dictionary (rows : List (List String)) (fieldnames : List String)
    (replace_newlines : Bool) (restval : Entry) : List Record :=
  (rows.filter (fun row => !row.isEmpty)).map
    (fun row =>
      (dictReaderRow fieldnames restval row).map
        (fun p => (p.1, clean_up p.2 replace_newlines)))

/-- Modelled from the documented behavior of the third-party `unidecode`
library used by `read_spreadsheet_clean_stream`: each ASCII character passes
through unchanged, and each non-ASCII character is transliterated to the
ASCII replacement string given by the library's table (abstracted here as the
parameter `table`); the per-character results are concatenated. -/
def unidecodeList (table : Char → String) : List Char → List Char
  | [] => []
  | c :: cs => (if c.toNat ≤ 127 then [c] else (table c).data) ++ unidecodeList table cs

/-- `unidecode.unidecode` on a string (see `unidecodeList`). -/
def unidecode (table : Char → String) (s : String) : String :=
  String.mk (unidecodeList table s.data)

/-- Embedding of `read_spreadsheet_clean_stream` from `spreadsheet.py`:
`unidecode` the raw contents, then remove every NUL character
(`contents.replace(chr(0), "")`). -/
def read_spreadsheet_clean_stream (table : Char → String) (contents : String) : String :=
  String.mk (pyReplaceCharList (Char.ofNat 0) [] (unidecode table contents).data)

/-! ### Dictionary lemmas -/

theorem dictGet_dictSet_self (d : Record) (k : FieldKey) (v : Entry) :
    dictGet (dictSet d k v) k = some v := by
  induction d with
  | nil => simp [dictSet, dictGet, List.find?]
  | cons p ps ih =>
    by_cases h : p.1 == k
    · simp [dictSet, h, dictGet, List.find?_cons, h]
    · simp only [dictSet, h, if_false, Bool.false_eq_true]
      simpa [dictGet, List.find?_cons, h] using ih

theorem dictGet_dictSet_other (d : Record) (k k' : FieldKey) (v : Entry) (h : k' ≠ k) :
    dictGet (dictSet d k v) k' = dictGet d k' := by
  induction d with
  | nil =>
    have hke : (k == k') = false := by
      simpa using fun e => h e.symm
    simp [dictSet, dictGet, List.find?, hke]
  | cons p ps ih =>
    by_cases hpk : p.1 == k
    · have hpk' : ¬ (p.1 == k') := by
        simp only [beq_iff_eq] at hpk ⊢
        rw [hpk]
        exact fun e => h e.symm
      simp [dictSet, hpk, dictGet, List.find?_cons, hpk']
    · by_cases hpk' : p.1 == k'
      · simp [dictSet, hpk, dictGet, List.find?_cons, hpk']
      · simp only [dictSet, hpk, if_false, Bool.false_eq_true]
        simpa [dictGet, List.find?_cons, hpk'] using ih

theorem dictGet_map_value (d : Record) (f : Entry → Entry) (k : FieldKey) :
    dictGet (d.map (fun p => (p.1, f p.2))) k = (dictGet d k).map f := by
  induction d with
  | nil => simp [dictGet]
  | cons p ps ih =>
    by_cases h : p.1 == k
    · simp [dictGet, List.find?_cons, h]
    · simpa [dictGet, List.find?_cons, h] using ih

theorem dictGet_clean (d : Record) (rn : Bool) (k : FieldKey) :
    dictGet (d.map (fun p => (p.1, clean_up p.2 rn))) k =
      (dictGet d k).map (fun e => clean_up e rn) :=
  dictGet_map_value d (fun e => clean_up e rn) k

/-! ### Lemmas about character-level replacement and transliteration -/

theorem mem_pyReplaceCharList {old : Char} {new : List Char} {l : List Char} {c : Char} :
    c ∈ pyReplaceCharList old new l → c ∈ new ∨ (c ∈ l ∧ c ≠ old) := by
  induction l with
  | nil => simp [pyReplaceCharList]
  | cons x xs ih =>
    intro h
    rcases List.mem_append.1 (by simpa [pyReplaceCharList] using h) with h1 | h1
    · by_cases hx : x = old
      · left
        simpa [hx] using h1
      · right
        have hcx : c = x := by simpa [hx] using h1
        exact ⟨by simp [hcx], by rw [hcx]; exact hx⟩
    · rcases ih h1 with h2 | ⟨h2, h3⟩
      · left
        exact h2
      · exact Or.inr ⟨List.mem_cons_of_mem _ h2, h3⟩

theorem mem_unidecodeList {table : Char → String} {l : List Char} {c : Char} :
    c ∈ unidecodeList table l → c.toNat ≤ 127 ∨ ∃ d, c ∈ (table d).data := by
  induction l with
  | nil => simp [unidecodeList]
  | cons x xs ih =>
    intro h
    rcases List.mem_append.1 (by simpa [unidecodeList] using h) with h1 | h1
    · by_cases hx : x.toNat ≤ 127
      · left
        have : c = x := by simpa [hx] using h1
        rw [this]
        exact hx
      · right
        exact ⟨x, by simpa [hx] using h1⟩
    · exact ih h1

/-- C5: the stream produced by `read_spreadsheet_clean_stream` — the text
handed to the CSV parsers — contains only ASCII characters (code points at
most 127; this is the guarantee of the `unidecode` transliteration table)
and contains no NUL character (removed by `replace(chr(0), "")`). -/
theorem claim_C5_clean_stream_ascii_nul_free (table : Char → String) (contents : String)
    (htable : ∀ c : Char, ∀ d ∈ (table c).data, d.toNat ≤ 127) :
    ∀ c ∈ (read_spreadsheet_clean_stream table contents).data,
      c.toNat ≤ 127 ∧ c ≠ Char.ofNat 0 := by
  intro c hc
  have hc' : c ∈ pyReplaceCharList (Char.ofNat 0) [] (unidecodeList table contents.data) := by
    simpa [read_spreadsheet_clean_stream, unidecode] using hc
  rcases mem_pyReplaceCharList hc' with h | ⟨hmem, hne⟩
  · simp at h
  · refine ⟨?_, hne⟩
    rcases mem_unidecodeList hmem with h | ⟨d, hd⟩
    · exact h
    · exact htable d c hd

/-- Witness for C5: a concrete transliteration table and input. -/
theorem claim_C5_clean_stream_ascii_nul_free_witness :
    'a'.toNat ≤ 127 ∧ 'a' ≠ Char.ofNat 0 :=
  claim_C5_clean_stream_ascii_nul_free (fun _ => "") "a"
    (by intro c d hd; simp at hd) 'a' (by decide)

/-! ### C1 and C9: the dictionary reader and `clean_up` -/

/-- C1 (failing input): on the one-row CSV `["x"]` read with declared field
names `["a", "b"]` and the default `restval=None`, `read_spreadsheet_dictionary`
returns a record mapping the declared field `"b"` to Python `None` — not to a
cleaned string value, although `clean_up`'s own docstring promises that an
empty field "is converted from None to a null string". -/
theorem claim_C1_short_row_field_not_string :
    read_spreadsheet_dictionary [["x"]] ["a", "b"] true Entry.null =
      [[(some "a", Entry.str "x"), (some "b", Entry.null)]] ∧
    dictGet ((read_spreadsheet_dictionary [["x"]] ["a", "b"] true Entry.null).headD [])
        (some "b") = some Entry.null ∧
    Entry.isStr Entry.null = false := by
  refine ⟨by decide, by decide, by decide⟩

/-- C9: `clean_up` on a list value cleans each element with
`replace_newlines=True` regardless of the flag passed for the list itself
(the recursive `map(clean_up, entry)` uses the default), so
`read_spreadsheet_dictionary` called with `replace_newlines=False` still
replaces internal newlines by `" | "` inside the aggregated trailing-column
list stored under the `restkey` (`None`). -/
theorem claim_C9_list_cleanup_ignores_flag :
    (∀ (l : List String) (rn : Bool),
      clean_up (Entry.list l) rn = Entry.list (l.map (fun s => clean_str s true))) ∧
    (∀ (fieldnames row : List String) (restval : Entry),
      fieldnames.length < row.length →
      dictGet ((read_spreadsheet_dictionary [row] fieldnames false restval).headD [])
          none =
        some (Entry.list ((row.drop fieldnames.length).map (fun s => clean_str s true)))) := by
  constructor
  · intro l rn
    rfl
  · intro fieldnames row restval hlt
    have hrow : row.isEmpty = false := by
      cases row with
      | nil => simp at hlt
      | cons x xs => rfl
    have hfilter : [row].filter (fun r => !r.isEmpty) = [row] := by
      simp [List.filter, hrow]
    simp only [read_spreadsheet_dictionary, hfilter, List.map_cons, List.map_nil,
      List.headD_cons]
    rw [dictGet_clean]
    simp only [dictReaderRow, hlt, if_true, if_pos]
    rw [dictGet_dictSet_self]
    rfl

/-- Witness for C9: a two-cell row read with one declared field and
`replace_newlines=False`; the trailing cell's newline is still replaced. -/
theorem claim_C9_list_cleanup_ignores_flag_witness :
    dictGet ((read_spreadsheet_dictionary [["x", "p\nq"]] ["a"] false Entry.null).headD [])
        none = some (Entry.list ["p | q"]) :=
  (claim_C9_list_cleanup_ignores_flag.2 ["a"] ["x", "p\nq"] Entry.null
    (by decide)).trans (by decide)

/-! ## Generic Python dictionaries

`process-ta-assignments.py` also builds dictionaries keyed by Python values
(`key_dict`, `hours_by_ta`, `slots_by_course`, ...).  These are embedded as
association lists in insertion order over an arbitrary key type. -/

/-- Python dictionary lookup `d[k]` (generic); `none` models a `KeyError`. -/
def alistGet {κ β : Type} [BEq κ] (d : List (κ × β)) (k : κ) : Option β :=
  (d.find? (fun p => p.1 == k)).map (fun p => p.2)

/-- Python dictionary assignment `d[k] = v` (generic). -/
def alistSet {κ β : Type} [BEq κ] : List (κ × β) → κ → β → List (κ × β)
  | [], k, v => [(k, v)]
  | p :: ps, k, v => if p.1 == k then (p.1, v) :: ps else p :: alistSet ps k v

theorem alistGet_alistSet_self {κ β : Type} [BEq κ] [LawfulBEq κ]
    (d : List (κ × β)) (k : κ) (v : β) :
    alistGet (alistSet d k v) k = some v := by
  induction d with
  | nil => simp [alistSet, alistGet, List.find?]
  | cons p ps ih =>
    by_cases h : p.1 == k
    · simp [alistSet, h, alistGet, List.find?_cons]
    · simp only [alistSet, h, if_false, Bool.false_eq_true]
      simpa [alistGet, List.find?_cons, h] using ih

theorem alistGet_alistSet_other {κ β : Type} [BEq κ] [LawfulBEq κ]
    (d : List (κ × β)) (k k' : κ) (v : β) (h : k' ≠ k) :
    alistGet (alistSet d k v) k' = alistGet d k' := by
  induction d with
  | nil =>
    have hke : (k == k') = false := by
      simpa using fun e => h e.symm
    simp [alistSet, alistGet, List.find?, hke]
  | cons p ps ih =>
    by_cases hpk : p.1 == k
    · have hpk' : ¬ (p.1 == k') := by
        simp only [beq_iff_eq] at hpk ⊢
        rw [hpk]
        exact fun e => h e.symm
      simp [alistSet, hpk, alistGet, List.find?_cons, hpk']
    · by_cases hpk' : p.1 == k'
      · simp [alistSet, hpk, alistGet, List.find?_cons, hpk']
      · simp only [alistSet, hpk, if_false, Bool.false_eq_true]
        simpa [alistGet, List.find?_cons, hpk'] using ih

theorem alistGet_alistSet (d : List (Entry × Int)) (k k' : Entry) (v : Int) :
    alistGet (alistSet d k v) k' = if k' = k then some v else alistGet d k' := by
  by_cases h : k' = k
  · rw [if_pos h, h]
    exact alistGet_alistSet_self d k v
  · rw [if_neg h]
    exact alistGet_alistSet_other d k k' v h

theorem alistGet_map_value {κ β γ : Type} [BEq κ]
    (d : List (κ × β)) (f : β → γ) (k : κ) :
    alistGet (d.map (fun p => (p.1, f p.2))) k = (alistGet d k).map f := by
  induction d with
  | nil => simp [alistGet]
  | cons p ps ih =>
    by_cases h : p.1 == k
    · simp [alistGet, List.find?_cons, h]
    · simpa [alistGet, List.find?_cons, h] using ih

/-- `dict.fromkeys(ks, v)` (and the dict comprehension `{k: v for k in ks}`):
keys in order, all mapped to `v`, inserted over `d`. -/
theorem alistGet_foldl_alistSet_const {κ β : Type} [BEq κ] [LawfulBEq κ]
    (ks : List κ) (v : β) (d : List (κ × β)) (k : κ) :
    alistGet (ks.foldl (fun d k => alistSet d k v) d) k =
      if k ∈ ks then some v else alistGet d k := by
  induction ks generalizing d with
  | nil => simp
  | cons k0 ks ih =>
    rw [List.foldl_cons, ih]
    by_cases hk : k ∈ ks
    · simp [hk]
    · by_cases hk0 : k = k0
      · simp [hk, hk0, alistGet_alistSet_self]
      · simp [hk, hk0, alistGet_alistSet_other _ _ _ _ hk0]

/-! ## process-ta-assignments.py: global configuration and input filters -/

/-- The `ta_exclusion_list` of `process-ta-assignments.py`: values of the
`ta` field indicating an unassigned slot. -/
def ta_exclusion_list : List Entry :=
  [Entry.null, Entry.str "", Entry.str "?", Entry.str "X", Entry.str "."]

/-- The declared roster field names of `read_roster`. -/
def roster_field_names : List String :=
  ["last", "first", "year", "netid", "advisor", "area", "ta_ra_status",
   "quota", "notes"]

/-- Python `str(value)` for the values that can appear in a named record
field here (`None`, strings, integers; the `restkey` list never appears as a
named field). -/
def pyStr : Entry → String
  | Entry.null => "None"
  | Entry.str s => s
  | Entry.int n => toString n
  | Entry.list _ => ""

/-- Digit-sequence parser for `pyInt`. -/
def pyParseDigits (l : List Char) : Option Nat :=
  if l = [] then none
  else if l.all Char.isDigit then
    some (l.foldl (fun acc c => 10 * acc + (c.toNat - 48)) 0)
  else none

/-- Python `int(s)` on a string: optional surrounding whitespace, an optional
sign, then a nonempty digit sequence; `none` models the `ValueError` raised
otherwise.  (Underscore digit grouping is not modelled.) -/
def pyInt (s : String) : Option Int :=
  match (pyStrip s).data with
  | '-' :: rest => (pyParseDigits rest).map (fun n => -(n : Int))
  | '+' :: rest => (pyParseDigits rest).map (fun n => (n : Int))
  | l => (pyParseDigits l).map (fun n => (n : Int))

/-- Per-record postprocessing inside `read_roster`'s loop:
`record["quota"] = int(record["quota"])` and
`record["key"] = "{last}:{first}".format(**record)`.  `none` models the
exception from `int()` on a non-numeral (`ValueError`) or non-string
(`TypeError`) quota, or a `KeyError` on a missing field. -/
def roster_postprocess (record : Record) : Option Record := do
  let quotaE ← dictGet record (some "quota")
  let q ← match quotaE with
    | Entry.str s => pyInt s
    | _ => none
  let lastE ← dictGet record (some "last")
  let firstE ← dictGet record (some "first")
  pure (dictSet (dictSet record (some "quota") (Entry.int q)) (some "key")
    (Entry.str (pyStr lastE ++ ":" ++ pyStr firstE)))

/-- The `for` loop of `read_roster` over the filtered table. -/
def read_roster_loop : List Record → Option (List Record)
  | [] => some []
  | record :: rest => do
    let record' ← roster_postprocess record
    let rest' ← read_roster_loop rest
    pure (record' :: rest')

/-- Embedding of `read_roster` from `process-ta-assignments.py`, over the
parsed rows of the roster CSV: read the spreadsheet with the declared roster
fields (`skip=False`, so every row is a data row), suppress records whose
`last` field is the empty string, then convert `quota` to an integer and add
the `key` field `"last:first"`. -/
def read_roster (rows : List (List String)) : Option (List Record) :=
  let table := read_spreadsheet_dictionary rows roster_field_names true Entry.null
  let table := table.filter
    (fun record => !(dictGet record (some "last") == some (Entry.str "")))
  read_roster_loop table

/-- The `for` loop of `index_roster`: accumulate `ta_keys`, `key_dict`
(`key_dict[record["last"]] = record["key"]` then
`key_dict[record["key"]] = record["key"]`) and `ta_info_by_ta`. -/
def index_roster_loop :
    List Record → List Entry × List (Entry × Entry) × List (Entry × Record) →
      Option (List Entry × List (Entry × Entry) × List (Entry × Record))
  | [], acc => some acc
  | record :: rest, (ta_keys, key_dict, ta_info) =>
    match dictGet record (some "last"), dictGet record (some "key") with
    | some lastE, some keyE =>
      index_roster_loop rest
        (ta_keys ++ [keyE],
         alistSet (alistSet key_dict lastE keyE) keyE keyE,
         alistSet ta_info keyE record)
    | _, _ => none

/-- Embedding of `index_roster` from `process-ta-assignments.py`: returns
`(ta_keys, key_dict, ta_info_by_ta)`; `none` models a `KeyError` on a record
missing `last` or `key`. -/
def index_roster (roster_table : List Record) :
    Option (List Entry × List (Entry × Entry) × List (Entry × Record)) :=
  index_roster_loop roster_table ([], [], [])

/-- Python exception kinds distinguished by the embedding of `tally_hours`. -/
inductive PyError where
  | valueError : PyError
  | keyError : PyError
  | typeError : PyError
deriving DecidableEq, Repr

/-- The `for` loop of `tally_hours`: skip slots whose `ta` is in the
exclusion list; otherwise resolve the `ta` through `key_dict` (any lookup
failure is re-raised as `ValueError` by the bare `except`), then
`hours_by_ta[key] += record["hours"]` (a missing key is a `KeyError`, a
non-integer hours value a `TypeError`). -/
def tally_hours_loop (key_dict : List (Entry × Entry)) :
    List Record → List (Entry × Int) → Except PyError (List (Entry × Int))
  | [], hours_by_ta => Except.ok hours_by_ta
  | record :: rest, hours_by_ta =>
    match dictGet record (some "ta") with
    | none => Except.error PyError.keyError
    | some ta =>
      if ta ∈ ta_exclusion_list then
        tally_hours_loop key_dict rest hours_by_ta
      else
        match alistGet key_dict ta with
        | none => Except.error PyError.valueError
        | some key =>
          match alistGet hours_by_ta key with
          | none => Except.error PyError.keyError
          | some cur =>
            match dictGet record (some "hours") with
            | none => Except.error PyError.keyError
            | some (Entry.int n) =>
              tally_hours_loop key_dict rest (alistSet hours_by_ta key (cur + n))
            | some _ => Except.error PyError.typeError

/-- Embedding of `tally_hours` from `process-ta-assignments.py`:
`hours_by_ta = dict.fromkeys(ta_keys, 0)`, then accumulate the `hours`
field of each non-excluded slot onto the key its `ta` field resolves to. -/
def tally_hours (slots_table : List Record) (ta_keys : List Entry)
    (key_dict : List (Entry × Entry)) : Except PyError (List (Entry × Int)) :=
  tally_hours_loop key_dict slots_table
    (ta_keys.foldl (fun d k => alistSet d k (0 : Int)) [])

/-- The `course_none_threshold` of `process-ta-assignments.py`. -/
def course_none_threshold : String := "PHYS99900"

/-- The `course_none_text` of `process-ta-assignments.py`. -/
def course_none_text : String := "PHYSXXXXX"

/-- Embedding of `course_or_none`. -/
def course_or_none (course : String) : String :=
  if course ≤ course_none_threshold then course else course_none_text

/-- The string value of a slot's `course` field; `none` models the failure
(`KeyError`, or an unusable non-string value) of the set/dict operations of
`unique_courses` and `collect_slots_by_course` on it. -/
def slotCourse (slot : Record) : Option String :=
  match dictGet slot (some "course") with
  | some (Entry.str s) => some s
  | _ => none

/-- The course values of a slots table, in table order. -/
def slots_course_values : List Record → Option (List String)
  | [] => some []
  | slot :: rest => do
    let c ← slotCourse slot
    let cs ← slots_course_values rest
    pure (c :: cs)

/-- Embedding of `unique_courses` from `process-ta-assignments.py`:
`sorted(set(course values))` — the duplicate-free, ascending list of the
course numbers occurring in the slots table (a sorted set is exactly the
deduplicated, sorted value list). -/
def unique_courses (slots_table : List Record) : Option (List String) := do
  let courses ← slots_course_values slots_table
  pure (courses.dedup.mergeSort (fun a b => decide (a ≤ b)))

/-- The Python tuple comparison `(course, section) <= (course', section')`
used as sort key in `collect_slots_by_course`. -/
def pairLe (p q : String × String) : Bool :=
  decide (p.1 < q.1) || (decide (p.1 = q.1) && decide (p.2 ≤ q.2))

/-- The sort key `lambda slot : (slot["course"], slot["section"])` of
`collect_slots_by_course` (the defaults are never reached on the records
this program sorts: both fields are strings). -/
def slotSortKey (slot : Record) : String × String :=
  (match dictGet slot (some "course") with
   | some (Entry.str s) => s
   | _ => "",
   match dictGet slot (some "section") with
   | some (Entry.str s) => s
   | _ => "")

/-- The record mutation `slot["course_or_none"] = course_or_none(course)`
performed by `collect_slots_by_course` on each slot as it is accumulated. -/
def tag_course_or_none (slot : Record) (course : String) : Record :=
  dictSet slot (some "course_or_none") (Entry.str (course_or_none course))

/-- The accumulation loop of `collect_slots_by_course`:
`slots_by_course[course].append(slot)` after the `course_or_none` mutation;
`none` models the `KeyError` on a course absent from `course_list`. -/
def collect_slots_loop :
    List Record → List (String × List Record) → Option (List (String × List Record))
  | [], acc => some acc
  | slot :: rest, acc => do
    let course ← slotCourse slot
    let slot' := tag_course_or_none slot course
    match alistGet acc course with
    | none => none
    | some l => collect_slots_loop rest (alistSet acc course (l ++ [slot']))

/-- Embedding of `collect_slots_by_course` from `process-ta-assignments.py`:
start from `{course: [] for course in course_list}`, accumulate each slot
onto its course, then sort each per-course list by the key
`(slot["course"], slot["section"])` (Python's stable `list.sort`, modelled
by the stable `List.mergeSort`). -/
def collect_slots_by_course (slots_table : List Record) (course_list : List String) :
    Option (List (String × List Record)) := do
  let init := course_list.foldl (fun d course => alistSet d course ([] : List Record)) []
  let filled ← collect_slots_loop slots_table init
  pure (filled.map (fun p =>
    (p.1, p.2.mergeSort (fun a b => pairLe (slotSortKey a) (slotSortKey b)))))

/-! ### Decidable well-formedness predicates used as hypotheses -/

/-- A slot record usable by `tally_hours` with every non-excluded `ta`
recognized: it has a `ta` field; if the `ta` is not excluded, it resolves
through `key_dict` to a key listed in `ta_keys`, and the record has an
integer `hours` field. -/
def slot_wf (key_dict : List (Entry × Entry)) (ta_keys : List Entry)
    (slot : Record) : Bool :=
  match dictGet slot (some "ta") with
  | none => false
  | some ta =>
    if ta ∈ ta_exclusion_list then true
    else
      match alistGet key_dict ta with
      | none => false
      | some key =>
        decide (key ∈ ta_keys) &&
          (match dictGet slot (some "hours") with
           | some (Entry.int _) => true
           | _ => false)

/-- Like `slot_wf` but the `ta` need not be recognized: only when it does
resolve must the key be listed and the `hours` field be an integer. -/
def slot_wf_res (key_dict : List (Entry × Entry)) (ta_keys : List Entry)
    (slot : Record) : Bool :=
  match dictGet slot (some "ta") with
  | none => false
  | some ta =>
    if ta ∈ ta_exclusion_list then true
    else
      match alistGet key_dict ta with
      | none => true
      | some key =>
        decide (key ∈ ta_keys) &&
          (match dictGet slot (some "hours") with
           | some (Entry.int _) => true
           | _ => false)

/-- A slot whose `ta` field is present, not excluded, and not a key of
`key_dict` — the condition under which `tally_hours` raises `ValueError`. -/
def slot_unrecognized (key_dict : List (Entry × Entry)) (slot : Record) : Bool :=
  match dictGet slot (some "ta") with
  | some ta => !(ta ∈ ta_exclusion_list : Bool) && (alistGet key_dict ta).isNone
  | none => false

/-- Whether a slot's `ta` is not excluded and resolves through `key_dict`
to the given key `k`. -/
def slotAssignedTo (key_dict : List (Entry × Entry)) (k : Entry) (slot : Record) : Bool :=
  match dictGet slot (some "ta") with
  | some ta =>
    !(ta ∈ ta_exclusion_list : Bool) && (alistGet key_dict ta == some k)
  | none => false

/-- The integer `hours` field of a slot (`0` default never reached on
well-formed slots). -/
def slotHours (slot : Record) : Int :=
  match dictGet slot (some "hours") with
  | some (Entry.int n) => n
  | _ => 0

/-! ### `tally_hours`: loop invariants -/

theorem tally_hours_loop_ok (key_dict : List (Entry × Entry)) (ta_keys : List Entry) :
    ∀ (slots : List Record) (acc : List (Entry × Int)),
    (∀ slot ∈ slots, slot_wf key_dict ta_keys slot = true) →
    (∀ k, (alistGet acc k).isSome ↔ k ∈ ta_keys) →
    ∃ m, tally_hours_loop key_dict slots acc = Except.ok m ∧
      (∀ k, (alistGet m k).isSome ↔ k ∈ ta_keys) ∧
      (∀ k cur, alistGet acc k = some cur →
        alistGet m k =
          some (cur + ((slots.filter (slotAssignedTo key_dict k)).map slotHours).sum)) := by
  intro slots
  induction slots with
  | nil =>
    intro acc _ hdom
    exact ⟨acc, rfl, hdom, fun k cur hcur => by simpa using hcur⟩
  | cons slot rest ih =>
    intro acc hwf hdom
    have hs := hwf slot (List.mem_cons_self _ _)
    have hwfr : ∀ s ∈ rest, slot_wf key_dict ta_keys s = true :=
      fun s hsm => hwf s (List.mem_cons_of_mem _ hsm)
    cases hta : dictGet slot (some "ta") with
    | none => simp [slot_wf, hta] at hs
    | some ta =>
      by_cases hexc : ta ∈ ta_exclusion_list
      · obtain ⟨m, hm, hdom', hval⟩ := ih acc hwfr hdom
        refine ⟨m, ?_, hdom', ?_⟩
        · simpa [tally_hours_loop, hta, hexc] using hm
        · intro k cur hcur
          have hsel : slotAssignedTo key_dict k slot = false := by
            simp [slotAssignedTo, hta, hexc]
          rw [List.filter_cons, if_neg (by simp [hsel])]
          exact hval k cur hcur
      · cases hkd : alistGet key_dict ta with
        | none => simp [slot_wf, hta, hexc, hkd] at hs
        | some key =>
          cases hhours : dictGet slot (some "hours") with
          | none => simp [slot_wf, hta, hexc, hkd, hhours] at hs
          | some e =>
            cases e with
            | null => simp [slot_wf, hta, hexc, hkd, hhours] at hs
            | str s => simp [slot_wf, hta, hexc, hkd, hhours] at hs
            | list l => simp [slot_wf, hta, hexc, hkd, hhours] at hs
            | int n =>
              have hkey_mem : key ∈ ta_keys := by
                simpa [slot_wf, hta, hexc, hkd, hhours] using hs
              obtain ⟨cur0, hcur0⟩ : ∃ cur0, alistGet acc key = some cur0 := by
                rw [← Option.isSome_iff_exists]
                exact (hdom key).2 hkey_mem
              have hdom2 : ∀ k, (alistGet (alistSet acc key (cur0 + n)) k).isSome ↔ k ∈ ta_keys := by
                intro k
                rw [alistGet_alistSet]
                by_cases hk : k = key
                · simp [hk, hkey_mem]
                · simp [hk, hdom k]
              obtain ⟨m, hm, hdom', hval⟩ := ih (alistSet acc key (cur0 + n)) hwfr hdom2
              refine ⟨m, ?_, hdom', ?_⟩
              · simpa [tally_hours_loop, hta, hexc, hkd, hcur0, hhours] using hm
              · intro k cur hcur
                by_cases hk : k = key
                · subst hk
                  have hcureq : cur0 = cur := by
                    rw [hcur0] at hcur
                    exact Option.some.inj hcur
                  have hsel : slotAssignedTo key_dict k slot = true := by
                    simp [slotAssignedTo, hta, hexc, hkd]
                  have hstep := hval k (cur0 + n) (by rw [alistGet_alistSet]; simp)
                  rw [List.filter_cons, if_pos (by simp [hsel]), List.map_cons, List.sum_cons]
                  rw [hstep]
                  have hsh : slotHours slot = n := by simp [slotHours, hhours]
                  rw [hsh, ← hcureq]
                  congr 1
                  ring
                · have hsel : slotAssignedTo key_dict k slot = false := by
                    simp only [slotAssignedTo, hta, Bool.and_eq_false_iff]
                    right
                    simp [hkd, Option.some.injEq]
                    exact fun e => hk e.symm
                  have := hval k cur (by rw [alistGet_alistSet, if_neg hk]; exact hcur)
                  rw [List.filter_cons, if_neg (by simp [hsel])]
                  exact this

/-- C2: for a roster-derived key list and lookup dictionary, `tally_hours`
returns a mapping whose key set is exactly `ta_keys`, and maps each key `k`
to the sum of the `hours` fields of the slot records whose `ta` is not in
the exclusion list `[None, "", "?", "X", "."]` and resolves through
`key_dict` to `k`; a TA with no assigned slots keeps the initial `0`. -/
theorem claim_C2_tally_hours (slots_table : List Record) (ta_keys : List Entry)
    (key_dict : List (Entry × Entry))
    (hwf : ∀ slot ∈ slots_table, slot_wf key_dict ta_keys slot = true) :
    ∃ m, tally_hours slots_table ta_keys key_dict = Except.ok m ∧
      (∀ k, (alistGet m k).isSome ↔ k ∈ ta_keys) ∧
      (∀ k ∈ ta_keys, alistGet m k =
        some (((slots_table.filter (slotAssignedTo key_dict k)).map slotHours).sum)) := by
  have hinit : ∀ k, alistGet (ta_keys.foldl (fun d k => alistSet d k (0 : Int)) []) k =
      if k ∈ ta_keys then some 0 else none := by
    intro k
    rw [alistGet_foldl_alistSet_const]
    by_cases h : k ∈ ta_keys <;> simp [h, alistGet]
  obtain ⟨m, hm, hdom, hval⟩ :=
    tally_hours_loop_ok key_dict ta_keys slots_table _ hwf
      (fun k => by rw [hinit k]; by_cases h : k ∈ ta_keys <;> simp [h])
  refine ⟨m, hm, hdom, ?_⟩
  intro k hk
  have := hval k 0 (by rw [hinit k]; simp [hk])
  simpa using this

/-- Witness for C2: one assigned slot (3 hours, by last name), one excluded
slot (`"?"`), one assigned slot (4 hours, by canonical key). -/
theorem claim_C2_tally_hours_witness :
    ((tally_hours
        [[(some "ta", Entry.str "Smith"), (some "hours", Entry.int 3)],
         [(some "ta", Entry.str "?"), (some "hours", Entry.int 4)],
         [(some "ta", Entry.str "Smith:John"), (some "hours", Entry.int 4)]]
        [Entry.str "Smith:John"]
        [(Entry.str "Smith", Entry.str "Smith:John"),
         (Entry.str "Smith:John", Entry.str "Smith:John")]).toOption.bind
      (fun m => alistGet m (Entry.str "Smith:John"))) = some 7 := by
  obtain ⟨m, hm, _, hval⟩ :=
    claim_C2_tally_hours
      [[(some "ta", Entry.str "Smith"), (some "hours", Entry.int 3)],
       [(some "ta", Entry.str "?"), (some "hours", Entry.int 4)],
       [(some "ta", Entry.str "Smith:John"), (some "hours", Entry.int 4)]]
      [Entry.str "Smith:John"]
      [(Entry.str "Smith", Entry.str "Smith:John"),
       (Entry.str "Smith:John", Entry.str "Smith:John")]
      (by decide)
  rw [hm]
  simpa [Except.toOption] using
    (hval (Entry.str "Smith:John") (by decide)).trans (by decide)

theorem tally_hours_loop_error (key_dict : List (Entry × Entry)) (ta_keys : List Entry) :
    ∀ (slots : List Record) (acc : List (Entry × Int)),
    (∀ slot ∈ slots, slot_wf_res key_dict ta_keys slot = true) →
    (∀ k, (alistGet acc k).isSome ↔ k ∈ ta_keys) →
    (∃ slot ∈ slots, slot_unrecognized key_dict slot = true) →
    tally_hours_loop key_dict slots acc = Except.error PyError.valueError := by
  intro slots
  induction slots with
  | nil =>
    intro acc _ _ hex
    simp at hex
  | cons slot rest ih =>
    intro acc hwf hdom hex
    have hs := hwf slot (List.mem_cons_self _ _)
    have hwfr : ∀ s ∈ rest, slot_wf_res key_dict ta_keys s = true :=
      fun s hsm => hwf s (List.mem_cons_of_mem _ hsm)
    cases hta : dictGet slot (some "ta") with
    | none => simp [slot_wf_res, hta] at hs
    | some ta =>
      by_cases hexc : ta ∈ ta_exclusion_list
      · have hrest : ∃ s ∈ rest, slot_unrecognized key_dict s = true := by
          rcases hex with ⟨s, hsm, hu⟩
          rcases List.mem_cons.1 hsm with rfl | hsm'
          · simp [slot_unrecognized, hta, hexc] at hu
          · exact ⟨s, hsm', hu⟩
        simpa [tally_hours_loop, hta, hexc] using ih acc hwfr hdom hrest
      · cases hkd : alistGet key_dict ta with
        | none =>
          simp [tally_hours_loop, hta, hexc, hkd]
        | some key =>
          cases hhours : dictGet slot (some "hours") with
          | none => simp [slot_wf_res, hta, hexc, hkd, hhours] at hs
          | some e =>
            cases e with
            | null => simp [slot_wf_res, hta, hexc, hkd, hhours] at hs
            | str s => simp [slot_wf_res, hta, hexc, hkd, hhours] at hs
            | list l => simp [slot_wf_res, hta, hexc, hkd, hhours] at hs
            | int n =>
              have hkey_mem : key ∈ ta_keys := by
                simpa [slot_wf_res, hta, hexc, hkd, hhours] using hs
              obtain ⟨cur0, hcur0⟩ : ∃ cur0, alistGet acc key = some cur0 := by
                rw [← Option.isSome_iff_exists]
                exact (hdom key).2 hkey_mem
              have hdom2 : ∀ k, (alistGet (alistSet acc key (cur0 + n)) k).isSome ↔ k ∈ ta_keys := by
                intro k
                rw [alistGet_alistSet]
                by_cases hk : k = key
                · simp [hk, hkey_mem]
                · simp [hk, hdom k]
              have hrest : ∃ s ∈ rest, slot_unrecognized key_dict s = true := by
                rcases hex with ⟨s, hsm, hu⟩
                rcases List.mem_cons.1 hsm with rfl | hsm'
                · simp [slot_unrecognized, hta, hexc, hkd] at hu
                · exact ⟨s, hsm', hu⟩
              simpa [tally_hours_loop, hta, hexc, hkd, hcur0, hhours] using
                ih (alistSet acc key (cur0 + n)) hwfr hdom2 hrest

theorem slot_wf_of_res_recognized (key_dict : List (Entry × Entry)) (ta_keys : List Entry)
    (slot : Record) (hres : slot_wf_res key_dict ta_keys slot = true)
    (hrec : slot_unrecognized key_dict slot = false) :
    slot_wf key_dict ta_keys slot = true := by
  cases hta : dictGet slot (some "ta") with
  | none => simp [slot_wf_res, hta] at hres
  | some ta =>
    by_cases hexc : ta ∈ ta_exclusion_list
    · simp [slot_wf, hta, hexc]
    · cases hkd : alistGet key_dict ta with
      | none => simp [slot_unrecognized, hta, hexc, hkd] at hrec
      | some key =>
        have := hres
        simp only [slot_wf_res, hta, hexc, hkd] at this
        simpa [slot_wf, hta, hexc, hkd] using this

/-- C3: `tally_hours` raises `ValueError` exactly when some slot's `ta`
field is outside the exclusion list `[None, "", "?", "X", "."]` and is not a
key of `key_dict`; when every non-excluded `ta` value is recognized, it
returns normally. -/
theorem claim_C3_tally_hours_value_error (slots_table : List Record)
    (ta_keys : List Entry) (key_dict : List (Entry × Entry))
    (hwf : ∀ slot ∈ slots_table, slot_wf_res key_dict ta_keys slot = true) :
    (tally_hours slots_table ta_keys key_dict = Except.error PyError.valueError ↔
      ∃ slot ∈ slots_table, slot_unrecognized key_dict slot = true) ∧
    ((∀ slot ∈ slots_table, slot_unrecognized key_dict slot = false) →
      ∃ m, tally_hours slots_table ta_keys key_dict = Except.ok m) := by
  have hinit : ∀ k, (alistGet (ta_keys.foldl (fun d k => alistSet d k (0 : Int)) []) k).isSome ↔
      k ∈ ta_keys := by
    intro k
    rw [alistGet_foldl_alistSet_const]
    by_cases h : k ∈ ta_keys <;> simp [h, alistGet]
  have hok : (∀ slot ∈ slots_table, slot_unrecognized key_dict slot = false) →
      ∃ m, tally_hours slots_table ta_keys key_dict = Except.ok m := by
    intro hall
    obtain ⟨m, hm, -, -⟩ :=
      tally_hours_loop_ok key_dict ta_keys slots_table _
        (fun s hsm => slot_wf_of_res_recognized key_dict ta_keys s (hwf s hsm) (hall s hsm))
        hinit
    exact ⟨m, hm⟩
  refine ⟨⟨?_, ?_⟩, hok⟩
  · intro herr
    by_contra hnex
    push_neg at hnex
    have hall : ∀ slot ∈ slots_table, slot_unrecognized key_dict slot = false := by
      intro s hsm
      have := hnex s hsm
      simpa using this
    obtain ⟨m, hm⟩ := hok hall
    rw [hm] at herr
    exact absurd herr (by simp)
  · intro hex
    exact tally_hours_loop_error key_dict ta_keys slots_table _ hwf hinit hex

/-- Witness for C3: a slot table with an unrecognized TA identifier raises
`ValueError`. -/
theorem claim_C3_tally_hours_value_error_witness :
    tally_hours
        [[(some "ta", Entry.str "Jones"), (some "hours", Entry.int 3),
          (some "course", Entry.str "PHYS10111")]]
        [Entry.str "Smith:John"]
        [(Entry.str "Smith", Entry.str "Smith:John"),
         (Entry.str "Smith:John", Entry.str "Smith:John")] =
      Except.error PyError.valueError :=
  (claim_C3_tally_hours_value_error
      [[(some "ta", Entry.str "Jones"), (some "hours", Entry.int 3),
        (some "course", Entry.str "PHYS10111")]]
      [Entry.str "Smith:John"]
      [(Entry.str "Smith", Entry.str "Smith:John"),
       (Entry.str "Smith:John", Entry.str "Smith:John")]
      (by decide)).1.2
    ⟨[(some "ta", Entry.str "Jones"), (some "hours", Entry.int 3),
      (some "course", Entry.str "PHYS10111")], by decide, by decide⟩

/-! ### `unique_courses` and `collect_slots_by_course` -/

/-- A slot record usable by `unique_courses` / `collect_slots_by_course`:
string `course` and `section` fields. -/
def slot_course_section_wf (slot : Record) : Bool :=
  (slotCourse slot).isSome &&
  (match dictGet slot (some "section") with
   | some (Entry.str _) => true
   | _ => false)

theorem slots_course_values_spec :
    ∀ (slots : List Record),
    (∀ slot ∈ slots, (slotCourse slot).isSome) →
    ∃ cs, slots_course_values slots = some cs ∧
      (∀ c, c ∈ cs ↔ ∃ slot ∈ slots, slotCourse slot = some c) := by
  intro slots
  induction slots with
  | nil =>
    intro _
    exact ⟨[], rfl, by simp⟩
  | cons slot rest ih =>
    intro h
    obtain ⟨c0, hc0⟩ := Option.isSome_iff_exists.1 (h slot (List.mem_cons_self _ _))
    obtain ⟨cs, hcs, hmem⟩ := ih (fun s hs => h s (List.mem_cons_of_mem _ hs))
    refine ⟨c0 :: cs, by simp [slots_course_values, hc0, hcs], ?_⟩
    intro c
    simp only [List.mem_cons]
    constructor
    · rintro (rfl | hc)
      · exact ⟨slot, Or.inl rfl, hc0⟩
      · obtain ⟨s, hs, hsc⟩ := (hmem c).1 hc
        exact ⟨s, Or.inr hs, hsc⟩
    · rintro ⟨s, hs, hsc⟩
      rcases hs with rfl | hs'
      · left
        rw [hc0] at hsc
        exact (Option.some.inj hsc).symm
      · right
        exact (hmem c).2 ⟨s, hs', hsc⟩

theorem pairLe_trans (a b c : String × String) :
    pairLe a b = true → pairLe b c = true → pairLe a c = true := by
  simp only [pairLe, Bool.or_eq_true, Bool.and_eq_true, decide_eq_true_eq]
  rintro (h1 | ⟨h1, h1'⟩) (h2 | ⟨h2, h2'⟩)
  · exact Or.inl (lt_trans h1 h2)
  · exact Or.inl (h2 ▸ h1)
  · exact Or.inl (h1 ▸ h2)
  · exact Or.inr ⟨h1.trans h2, le_trans h1' h2'⟩

theorem pairLe_total (a b : String × String) :
    (pairLe a b || pairLe b a) = true := by
  simp only [pairLe, Bool.or_eq_true, Bool.and_eq_true, decide_eq_true_eq]
  rcases lt_trichotomy a.1 b.1 with h | h | h
  · exact Or.inl (Or.inl h)
  · rcases le_total a.2 b.2 with h2 | h2
    · exact Or.inl (Or.inr ⟨h, h2⟩)
    · exact Or.inr (Or.inr ⟨h.symm, h2⟩)
  · exact Or.inr (Or.inl h)

theorem collect_slots_loop_spec (courses : List String) :
    ∀ (slots : List Record) (acc : List (String × List Record)),
    (∀ slot ∈ slots, ∃ c, slotCourse slot = some c ∧ c ∈ courses) →
    (∀ c, (alistGet acc c).isSome ↔ c ∈ courses) →
    ∃ m, collect_slots_loop slots acc = some m ∧
      (∀ c, (alistGet m c).isSome ↔ c ∈ courses) ∧
      (∀ c cur, alistGet acc c = some cur →
        alistGet m c = some (cur ++ (slots.filter (fun s => slotCourse s == some c)).map
          (fun s => tag_course_or_none s c))) := by
  intro slots
  induction slots with
  | nil =>
    intro acc _ hdom
    exact ⟨acc, rfl, hdom, fun c cur hcur => by simpa using hcur⟩
  | cons slot rest ih =>
    intro acc hall hdom
    obtain ⟨c0, hc0, hc0mem⟩ := hall slot (List.mem_cons_self _ _)
    obtain ⟨cur0, hcur0⟩ : ∃ cur0, alistGet acc c0 = some cur0 := by
      rw [← Option.isSome_iff_exists]
      exact (hdom c0).2 hc0mem
    have hdom2 : ∀ c, (alistGet (alistSet acc c0 (cur0 ++ [tag_course_or_none slot c0])) c).isSome
        ↔ c ∈ courses := by
      intro c
      by_cases hc : c = c0
      · subst hc
        rw [alistGet_alistSet_self]
        simpa using hc0mem
      · rw [alistGet_alistSet_other _ _ _ _ hc]
        exact hdom c
    obtain ⟨m, hm, hdom', hval⟩ :=
      ih (alistSet acc c0 (cur0 ++ [tag_course_or_none slot c0]))
        (fun s hs => hall s (List.mem_cons_of_mem _ hs)) hdom2
    refine ⟨m, ?_, hdom', ?_⟩
    · simpa [collect_slots_loop, hc0, hcur0] using hm
    · intro c cur hcur
      by_cases hc : c = c0
      · subst hc
        have hcureq : cur0 = cur := by
          rw [hcur0] at hcur
          exact Option.some.inj hcur
        have hstep := hval c (cur0 ++ [tag_course_or_none slot c])
          (by rw [alistGet_alistSet_self])
        rw [List.filter_cons, if_pos (by simp [hc0]), List.map_cons]
        rw [hstep, ← hcureq]
        simp
      · have hstep := hval c cur (by rw [alistGet_alistSet_other _ _ _ _ hc]; exact hcur)
        have hne : (slotCourse slot == some c) = false := by
          simp [hc0]
          exact fun e => hc e.symm
        rw [List.filter_cons, if_neg (by simp [hne])]
        exact hstep

/-- C4: `unique_courses` returns the duplicate-free, alphabetically sorted
list of the course numbers occurring in the slots table, and
`collect_slots_by_course` maps each such course to exactly the slot records
bearing that course number (with the `course_or_none` field the loop sets on
them), each per-course list sorted by the composite key
`(slot["course"], slot["section"])`. -/
theorem claim_C4_unique_courses_and_collect (slots_table : List Record)
    (hwf : ∀ slot ∈ slots_table, slot_course_section_wf slot = true) :
    ∃ courses, unique_courses slots_table = some courses ∧
      courses.Nodup ∧
      List.Pairwise (fun a b : String => a < b) courses ∧
      (∀ c, c ∈ courses ↔ ∃ slot ∈ slots_table,
        dictGet slot (some "course") = some (Entry.str c)) ∧
      ∃ m, collect_slots_by_course slots_table courses = some m ∧
        (∀ c, (alistGet m c).isSome ↔ c ∈ courses) ∧
        (∀ c ∈ courses, ∃ l, alistGet m c = some l ∧
          l.Perm ((slots_table.filter (fun s => slotCourse s == some c)).map
            (fun s => tag_course_or_none s c)) ∧
          List.Pairwise (fun a b => pairLe (slotSortKey a) (slotSortKey b) = true) l) := by
  have hcs : ∀ slot ∈ slots_table, (slotCourse slot).isSome := by
    intro s hs
    have := hwf s hs
    simp only [slot_course_section_wf, Bool.and_eq_true] at this
    exact this.1
  obtain ⟨cs, hcs_eq, hcs_mem⟩ := slots_course_values_spec slots_table hcs
  set le : String → String → Bool := fun a b => decide (a ≤ b) with hle
  have htrans : ∀ a b c : String, le a b = true → le b c = true → le a c = true := by
    intro a b c h1 h2
    simp only [hle, decide_eq_true_eq] at h1 h2 ⊢
    exact le_trans h1 h2
  have htotal : ∀ a b : String, (le a b || le b a) = true := by
    intro a b
    simp only [hle, Bool.or_eq_true, decide_eq_true_eq]
    exact le_total a b
  set courses := cs.dedup.mergeSort le with hcourses
  have hperm : courses.Perm cs.dedup := List.mergeSort_perm cs.dedup le
  have hnodup : courses.Nodup := hperm.symm.nodup (List.nodup_dedup cs)
  have hsorted_le : List.Pairwise (fun a b => le a b = true) courses :=
    List.sorted_mergeSort htrans htotal cs.dedup
  have hsorted : List.Pairwise (fun a b : String => a < b) courses := by
    have := (hsorted_le.and hnodup)
    exact this.imp (fun h => lt_of_le_of_ne (by simpa [hle] using h.1) h.2)
  have hmem : ∀ c, c ∈ courses ↔ ∃ slot ∈ slots_table,
      dictGet slot (some "course") = some (Entry.str c) := by
    intro c
    rw [hperm.mem_iff, List.mem_dedup, hcs_mem c]
    constructor
    · rintro ⟨s, hs, hsc⟩
      refine ⟨s, hs, ?_⟩
      simp only [slotCourse] at hsc
      cases hget : dictGet s (some "course") with
      | none => rw [hget] at hsc; simp at hsc
      | some e =>
        cases e with
        | str t =>
          rw [hget] at hsc
          simp at hsc
          rw [hsc]
        | null => rw [hget] at hsc; simp at hsc
        | int n => rw [hget] at hsc; simp at hsc
        | list l => rw [hget] at hsc; simp at hsc
    · rintro ⟨s, hs, hsc⟩
      exact ⟨s, hs, by simp [slotCourse, hsc]⟩
  have hinit : ∀ c, (alistGet (courses.foldl (fun d course =>
      alistSet d course ([] : List Record)) []) c).isSome ↔ c ∈ courses := by
    intro c
    rw [alistGet_foldl_alistSet_const]
    by_cases h : c ∈ courses <;> simp [h, alistGet]
  obtain ⟨filled, hfilled, hdom, hval⟩ :=
    collect_slots_loop_spec courses slots_table _
      (fun s hs => by
        obtain ⟨c, hc⟩ := Option.isSome_iff_exists.1 (hcs s hs)
        refine ⟨c, hc, ?_⟩
        rw [hmem c]
        refine ⟨s, hs, ?_⟩
        simp only [slotCourse] at hc
        cases hget : dictGet s (some "course") with
        | none => rw [hget] at hc; simp at hc
        | some e =>
          cases e with
          | str t =>
            rw [hget] at hc
            simp at hc
            rw [hc]
          | null => rw [hget] at hc; simp at hc
          | int n => rw [hget] at hc; simp at hc
          | list l => rw [hget] at hc; simp at hc)
      hinit
  refine ⟨courses, ?_, hnodup, hsorted, hmem, ?_⟩
  · show unique_courses slots_table = some courses
    simp only [unique_courses, hcs_eq, Option.some_bind]
    rfl
  set sortFn := fun (l : List Record) =>
    l.mergeSort (fun a b => pairLe (slotSortKey a) (slotSortKey b)) with hsortFn
  refine ⟨filled.map (fun p => (p.1, sortFn p.2)), ?_, ?_, ?_⟩
  · simp [collect_slots_by_course, hfilled, hsortFn]
  · intro c
    rw [show (filled.map (fun p => (p.1, sortFn p.2))) =
        (filled.map (fun p => (p.1, sortFn p.2))) from rfl]
    rw [alistGet_map_value filled sortFn c]
    cases h : alistGet filled c with
    | none => simpa [h] using (hdom c)
    | some l => simpa [h] using (hdom c)
  · intro c hcmem
    obtain ⟨cur, hcur⟩ : ∃ cur, alistGet filled c = some cur := by
      rw [← Option.isSome_iff_exists]
      exact (hdom c).2 hcmem
    have hinitc : alistGet (courses.foldl (fun d course =>
        alistSet d course ([] : List Record)) []) c = some [] := by
      rw [alistGet_foldl_alistSet_const]
      simp [hcmem]
    have hcurval := hval c [] hinitc
    rw [hcur] at hcurval
    have hcur_eq : cur = (slots_table.filter (fun s => slotCourse s == some c)).map
        (fun s => tag_course_or_none s c) := by
      simpa using Option.some.inj hcurval
    refine ⟨sortFn cur, ?_, ?_, ?_⟩
    · rw [alistGet_map_value filled sortFn c, hcur]
      rfl
    · rw [hcur_eq] at *
      exact List.mergeSort_perm _ _
    · show List.Pairwise (fun a b => pairLe (slotSortKey a) (slotSortKey b) = true)
        (cur.mergeSort (fun a b => pairLe (slotSortKey a) (slotSortKey b)))
      exact List.sorted_mergeSort
        (fun a b c h1 h2 =>
          pairLe_trans (slotSortKey a) (slotSortKey b) (slotSortKey c) h1 h2)
        (fun a b => pairLe_total (slotSortKey a) (slotSortKey b)) cur

/-- Witness for C4: a concrete two-course slots table. -/
theorem claim_C4_unique_courses_and_collect_witness :
    (unique_courses
      [[(some "course", Entry.str "PHYS20220"), (some "section", Entry.str "01")],
       [(some "course", Entry.str "PHYS10111"), (some "section", Entry.str "02")],
       [(some "course", Entry.str "PHYS20220"), (some "section", Entry.str "01")]]).isSome
      = true ∧
    ((unique_courses
      [[(some "course", Entry.str "PHYS20220"), (some "section", Entry.str "01")],
       [(some "course", Entry.str "PHYS10111"), (some "section", Entry.str "02")],
       [(some "course", Entry.str "PHYS20220"), (some "section", Entry.str "01")]]).bind
      (fun cs => collect_slots_by_course
        [[(some "course", Entry.str "PHYS20220"), (some "section", Entry.str "01")],
         [(some "course", Entry.str "PHYS10111"), (some "section", Entry.str "02")],
         [(some "course", Entry.str "PHYS20220"), (some "section", Entry.str "01")]]
        cs)).isSome = true := by
  obtain ⟨courses, hc, -, -, -, m, hm, -, -⟩ :=
    claim_C4_unique_courses_and_collect
      [[(some "course", Entry.str "PHYS20220"), (some "section", Entry.str "01")],
       [(some "course", Entry.str "PHYS10111"), (some "section", Entry.str "02")],
       [(some "course", Entry.str "PHYS20220"), (some "section", Entry.str "01")]]
      (by decide)
  exact ⟨by simp [hc], by simp [hc, hm]⟩

/-! ### Field presence in records built by the dictionary reader -/

theorem dictGet_dictSet_isSome (d : Record) (k k' : FieldKey) (v : Entry) :
    (dictGet (dictSet d k v) k').isSome ↔ k' = k ∨ (dictGet d k').isSome := by
  by_cases h : k' = k
  · subst h
    simp [dictGet_dictSet_self]
  · rw [dictGet_dictSet_other d k k' v h]
    simp [h]

theorem map_fst_zip_eq_take {α β : Type*} :
    ∀ (l₁ : List α) (l₂ : List β), (l₁.zip l₂).map Prod.fst = l₁.take l₂.length
  | [], _ => by simp
  | _ :: _, [] => by simp
  | a :: l₁, b :: l₂ => by simp [map_fst_zip_eq_take l₁ l₂]

theorem dictGet_foldl_pairs_isSome :
    ∀ (ps : List (FieldKey × Entry)) (d : Record) (k : FieldKey),
    (dictGet (ps.foldl (fun d p => dictSet d p.1 p.2) d) k).isSome ↔
      k ∈ ps.map Prod.fst ∨ (dictGet d k).isSome := by
  intro ps
  induction ps with
  | nil => simp
  | cons p ps ih =>
    intro d k
    rw [List.foldl_cons, ih, dictGet_dictSet_isSome]
    simp only [List.map_cons, List.mem_cons]
    tauto

theorem dictGet_foldl_restval_isSome :
    ∀ (fs : List String) (d : Record) (restval : Entry) (k : FieldKey),
    (dictGet (fs.foldl (fun d f => dictSet d (some f) restval) d) k).isSome ↔
      k ∈ fs.map some ∨ (dictGet d k).isSome := by
  intro fs
  induction fs with
  | nil => simp
  | cons f fs ih =>
    intro d restval k
    rw [List.foldl_cons, ih, dictGet_dictSet_isSome]
    simp only [List.map_cons, List.mem_cons]
    tauto

theorem dictReaderRow_field_isSome (fieldnames : List String) (restval : Entry)
    (row : List String) (f : String) (hf : f ∈ fieldnames) :
    (dictGet (dictReaderRow fieldnames restval row) (some f)).isSome := by
  unfold dictReaderRow pyDictOfPairs
  by_cases hlen : fieldnames.length < row.length
  · rw [if_pos hlen, dictGet_dictSet_isSome]
    right
    rw [dictGet_foldl_pairs_isSome, map_fst_zip_eq_take]
    left
    have htake : ((fieldnames.map some).take (row.map Entry.str).length) =
        fieldnames.map some := by
      apply List.take_of_length_le
      simp
      omega
    rw [htake]
    exact List.mem_map_of_mem some hf
  · rw [if_neg hlen, dictGet_foldl_restval_isSome]
    push_neg at hlen
    have hsplit := List.take_append_drop row.length fieldnames
    rw [← hsplit] at hf
    rcases List.mem_append.1 hf with htake | hdrop
    · right
      rw [dictGet_foldl_pairs_isSome, map_fst_zip_eq_take]
      left
      have heq : ((fieldnames.map some).take (row.map Entry.str).length) =
          (fieldnames.take row.length).map some := by
        rw [List.map_take]
        simp
      rw [heq]
      exact List.mem_map_of_mem some htake
    · left
      exact List.mem_map_of_mem some hdrop

theorem read_spreadsheet_dictionary_field_isSome
    (rows : List (List String)) (fieldnames : List String) (rn : Bool)
    (restval : Entry) (r : Record)
    (hr : r ∈ read_spreadsheet_dictionary rows fieldnames rn restval)
    (f : String) (hf : f ∈ fieldnames) :
    (dictGet r (some f)).isSome := by
  unfold read_spreadsheet_dictionary at hr
  obtain ⟨row, hrow, rfl⟩ := List.mem_map.1 hr
  rw [dictGet_clean]
  simpa using dictReaderRow_field_isSome fieldnames restval row f hf

/-! ### `read_roster` -/

/-- A record whose `last` field is the empty string (so `read_roster`
suppresses it), or whose `quota` field is a string parsing as an integer. -/
def roster_record_quota_ok (record : Record) : Bool :=
  (dictGet record (some "last") == some (Entry.str "")) ||
  (match dictGet record (some "quota") with
   | some (Entry.str s) => (pyInt s).isSome
   | _ => false)

/-- The relation between a cleaned input record and the corresponding record
returned by `read_roster`: `quota` is converted to the parsed integer, `key`
is added as `"last:first"`, and every other field is unchanged. -/
def roster_rel (r r' : Record) : Prop :=
  ∃ s n lastE firstE,
    dictGet r (some "quota") = some (Entry.str s) ∧ pyInt s = some n ∧
    dictGet r (some "last") = some lastE ∧ dictGet r (some "first") = some firstE ∧
    dictGet r' (some "quota") = some (Entry.int n) ∧
    dictGet r' (some "key") =
      some (Entry.str (pyStr lastE ++ ":" ++ pyStr firstE)) ∧
    (∀ k, k ≠ some "quota" → k ≠ some "key" → dictGet r' k = dictGet r k)

theorem roster_postprocess_spec (r : Record) (s : String) (n : Int)
    (lastE firstE : Entry)
    (hq : dictGet r (some "quota") = some (Entry.str s)) (hn : pyInt s = some n)
    (hl : dictGet r (some "last") = some lastE)
    (hf : dictGet r (some "first") = some firstE) :
    ∃ r', roster_postprocess r = some r' ∧ roster_rel r r' := by
  have hl' : dictGet (dictSet r (some "quota") (Entry.int n)) (some "last") = some lastE := by
    rw [dictGet_dictSet_other _ _ _ _ (by simp)]
    exact hl
  have hf' : dictGet (dictSet r (some "quota") (Entry.int n)) (some "first") = some firstE := by
    rw [dictGet_dictSet_other _ _ _ _ (by simp)]
    exact hf
  refine ⟨dictSet (dictSet r (some "quota") (Entry.int n)) (some "key")
    (Entry.str (pyStr lastE ++ ":" ++ pyStr firstE)), ?_, ?_⟩
  · simp [roster_postprocess, hq, hn, hl, hf]
  · refine ⟨s, n, lastE, firstE, hq, hn, hl, hf, ?_, ?_, ?_⟩
    · rw [dictGet_dictSet_other _ _ _ _ (by simp), dictGet_dictSet_self]
    · rw [dictGet_dictSet_self]
    · intro k hkq hkk
      rw [dictGet_dictSet_other _ _ _ _ hkk, dictGet_dictSet_other _ _ _ _ hkq]

theorem read_roster_loop_spec :
    ∀ (table : List Record),
    (∀ r ∈ table, ∃ s n lastE firstE,
      dictGet r (some "quota") = some (Entry.str s) ∧ pyInt s = some n ∧
      dictGet r (some "last") = some lastE ∧
      dictGet r (some "first") = some firstE) →
    ∃ result, read_roster_loop table = some result ∧
      List.Forall₂ roster_rel table result := by
  intro table
  induction table with
  | nil =>
    intro _
    exact ⟨[], rfl, List.Forall₂.nil⟩
  | cons r rest ih =>
    intro h
    obtain ⟨s, n, lastE, firstE, hq, hn, hl, hf⟩ := h r (List.mem_cons_self _ _)
    obtain ⟨r', hr', hrel⟩ := roster_postprocess_spec r s n lastE firstE hq hn hl hf
    obtain ⟨result, hres, hall⟩ := ih (fun x hx => h x (List.mem_cons_of_mem _ hx))
    exact ⟨r' :: result, by simp [read_roster_loop, hr', hres], List.Forall₂.cons hrel hall⟩

/-- C7: for roster rows whose non-suppressed records carry an
integer-numeral `quota` string, `read_roster` suppresses exactly the records
whose `last` field is the empty string and returns the remaining records in
input order, with `quota` converted to the parsed integer, a `key` field
equal to `"last:first"` added, and all other fields unchanged. -/
theorem claim_C7_read_roster (rows : List (List String))
    (hQ : ∀ record ∈ read_spreadsheet_dictionary rows roster_field_names true Entry.null,
      roster_record_quota_ok record = true) :
    ∃ result, read_roster rows = some result ∧
      List.Forall₂ roster_rel
        ((read_spreadsheet_dictionary rows roster_field_names true Entry.null).filter
          (fun record => !(dictGet record (some "last") == some (Entry.str ""))))
        result := by
  set table := read_spreadsheet_dictionary rows roster_field_names true Entry.null with htable
  set kept := table.filter
    (fun record => !(dictGet record (some "last") == some (Entry.str ""))) with hkept
  have hsub : ∀ r ∈ kept, r ∈ table := fun r hr => List.mem_of_mem_filter hr
  have hprep : ∀ r ∈ kept, ∃ s n lastE firstE,
      dictGet r (some "quota") = some (Entry.str s) ∧ pyInt s = some n ∧
      dictGet r (some "last") = some lastE ∧
      dictGet r (some "first") = some firstE := by
    intro r hr
    have hmem : r ∈ table := hsub r hr
    have hfilter : (dictGet r (some "last") == some (Entry.str "")) = false := by
      have := List.of_mem_filter hr
      simpa using this
    have hok := hQ r hmem
    rw [roster_record_quota_ok, hfilter] at hok
    simp only [Bool.false_or] at hok
    obtain ⟨lastE, hl⟩ := Option.isSome_iff_exists.1
      (read_spreadsheet_dictionary_field_isSome rows roster_field_names true
        Entry.null r hmem "last" (by simp [roster_field_names]))
    obtain ⟨firstE, hf⟩ := Option.isSome_iff_exists.1
      (read_spreadsheet_dictionary_field_isSome rows roster_field_names true
        Entry.null r hmem "first" (by simp [roster_field_names]))
    cases hq : dictGet r (some "quota") with
    | none => rw [hq] at hok; simp at hok
    | some e =>
      cases e with
      | str s =>
        rw [hq] at hok
        obtain ⟨n, hn⟩ := Option.isSome_iff_exists.1 hok
        exact ⟨s, n, lastE, firstE, rfl, hn, hl, hf⟩
      | null => rw [hq] at hok; simp at hok
      | int m => rw [hq] at hok; simp at hok
      | list l => rw [hq] at hok; simp at hok
  obtain ⟨result, hres, hall⟩ := read_roster_loop_spec kept hprep
  exact ⟨result, by simpa [read_roster, ← htable, ← hkept] using hres, hall⟩

/-- Witness for C7: a roster with one TA row and one blank (suppressed) row. -/
theorem claim_C7_read_roster_witness :
    (read_roster
      [["Smith", "John", "G2", "jsmith", "Prof A", "HEP", "TA", "10", "ok"],
       ["", "", "", "", "", "", "", "", ""]]).isSome = true := by
  obtain ⟨result, hres, -⟩ :=
    claim_C7_read_roster
      [["Smith", "John", "G2", "jsmith", "Prof A", "HEP", "TA", "10", "ok"],
       ["", "", "", "", "", "", "", "", ""]]
      (by decide)
  simp [hres]

/-! ### `index_roster` -/

/-- A roster record as produced by `read_roster`: string `last` and `first`
fields, `key` equal to `"last:first"` — and (the amendment forced by the
counterexample below) a last name containing no colon. -/
def roster_record_wf (record : Record) : Bool :=
  match dictGet record (some "last"), dictGet record (some "first"),
      dictGet record (some "key") with
  | some (Entry.str l), some (Entry.str f), some keyE =>
      (keyE == Entry.str (l ++ ":" ++ f)) && !(l.data.contains ':')
  | _, _, _ => false

theorem roster_record_wf_spec (r : Record) (h : roster_record_wf r = true) :
    ∃ l f, dictGet r (some "last") = some (Entry.str l) ∧
      dictGet r (some "key") = some (Entry.str (l ++ ":" ++ f)) ∧
      l.data.contains ':' = false := by
  unfold roster_record_wf at h
  split at h
  case _ l f keyE hl hf hk =>
    rw [Bool.and_eq_true, beq_iff_eq] at h
    exact ⟨l, f, hl, by rw [hk, h.1], by simpa using h.2⟩
  case _ => exact absurd h (by simp)

theorem colon_mem_key (l f : String) : ':' ∈ (l ++ ":" ++ f).data := by
  rw [String.data_append, String.data_append]
  exact List.mem_append.2 (Or.inl (List.mem_append.2 (Or.inr (by decide))))

theorem str_ne_key_of_no_colon {l0 l f : String}
    (h : l0.data.contains ':' = false) :
    Entry.str l0 ≠ Entry.str (l ++ ":" ++ f) := by
  intro e
  have he : l0 = l ++ ":" ++ f := by
    injection e
  have hmem : ':' ∈ l0.data := he ▸ colon_mem_key l f
  have : ':' ∉ l0.data := by simpa using h
  exact this hmem

theorem index_roster_loop_append :
    ∀ (xs ys : List Record)
      (acc : List Entry × List (Entry × Entry) × List (Entry × Record)),
    index_roster_loop (xs ++ ys) acc =
      (index_roster_loop xs acc).bind (fun acc' => index_roster_loop ys acc') := by
  intro xs
  induction xs with
  | nil =>
    intro ys acc
    simp [index_roster_loop]
  | cons r rest ih =>
    intro ys acc
    obtain ⟨a, b, c⟩ := acc
    cases hl : dictGet r (some "last") with
    | none => simp [index_roster_loop, hl]
    | some lastE =>
      cases hk : dictGet r (some "key") with
      | none => simp [index_roster_loop, hl, hk]
      | some keyE => simpa [index_roster_loop, hl, hk] using ih ys _

theorem index_roster_loop_singleton (r : Record)
    (acc : List Entry × List (Entry × Entry) × List (Entry × Record))
    (lastE keyE : Entry)
    (hl : dictGet r (some "last") = some lastE)
    (hk : dictGet r (some "key") = some keyE) :
    index_roster_loop [r] acc =
      some (acc.1 ++ [keyE],
        alistSet (alistSet acc.2.1 lastE keyE) keyE keyE,
        alistSet acc.2.2 keyE r) := by
  obtain ⟨a, b, c⟩ := acc
  simp [index_roster_loop, hl, hk]

/-- C8 (counterexample to the claim as stated): with a roster whose second
record's last name "A:B" equals the first record's canonical key, `key_dict`
maps the first record's canonical key "A:B" to "A:B:C", not to itself. -/
theorem claim_C8_counterexample :
    (index_roster
      [[(some "last", Entry.str "A"), (some "first", Entry.str "B"),
        (some "key", Entry.str "A:B")],
       [(some "last", Entry.str "A:B"), (some "first", Entry.str "C"),
        (some "key", Entry.str "A:B:C")]]).map
      (fun t => alistGet t.2.1 (Entry.str "A:B")) =
      some (some (Entry.str "A:B:C")) ∧
    (Entry.str "A:B:C" == Entry.str "A:B") = false := by
  refine ⟨by decide, by decide⟩

/-- C8 (amended): for a roster whose last names contain no colon (as with
real names; the counterexample needs a last name that collides with a
canonical key), `key_dict` maps each record's canonical key `"last:first"`
to itself, and maps each bare last name occurring in the roster to the
canonical key of the LAST roster record bearing that last name, so later
records overwrite earlier ones. -/
theorem claim_C8_index_roster_fixed_point (roster_table : List Record)
    (hR : ∀ r ∈ roster_table, roster_record_wf r = true) :
    ∃ ta_keys key_dict ta_info,
      index_roster roster_table = some (ta_keys, key_dict, ta_info) ∧
      (∀ r ∈ roster_table, ∀ keyE, dictGet r (some "key") = some keyE →
        alistGet key_dict keyE = some keyE) ∧
      (∀ (l : String) (r : Record), r ∈ roster_table →
        dictGet r (some "last") = some (Entry.str l) →
        ∃ r', roster_table.reverse.find?
            (fun rec => dictGet rec (some "last") == some (Entry.str l)) = some r' ∧
          alistGet key_dict (Entry.str l) = dictGet r' (some "key")) := by
  induction roster_table using List.reverseRecOn with
  | nil =>
    exact ⟨[], [], [], rfl, by simp, by simp⟩
  | append_singleton xs r ih =>
    have hRxs : ∀ x ∈ xs, roster_record_wf x = true :=
      fun x hx => hR x (List.mem_append.2 (Or.inl hx))
    have hRr : roster_record_wf r = true :=
      hR r (List.mem_append.2 (Or.inr (List.mem_cons_self _ _)))
    obtain ⟨lr, fr, hlr, hkr, hcolr⟩ := roster_record_wf_spec r hRr
    obtain ⟨tks, kd, info, hidx, hfix, hlastn⟩ := ih hRxs
    have hidx' : index_roster (xs ++ [r]) =
        some (tks ++ [Entry.str (lr ++ ":" ++ fr)],
          alistSet (alistSet kd (Entry.str lr) (Entry.str (lr ++ ":" ++ fr)))
            (Entry.str (lr ++ ":" ++ fr)) (Entry.str (lr ++ ":" ++ fr)),
          alistSet info (Entry.str (lr ++ ":" ++ fr)) r) := by
      unfold index_roster at hidx ⊢
      rw [index_roster_loop_append, hidx, Option.some_bind]
      exact index_roster_loop_singleton r (tks, kd, info) _ _ hlr hkr
    set keyR := Entry.str (lr ++ ":" ++ fr) with hkeyR
    set kd' := alistSet (alistSet kd (Entry.str lr) keyR) keyR keyR with hkd'
    refine ⟨tks ++ [keyR], kd', alistSet info keyR r, hidx', ?_, ?_⟩
    · intro r0 hr0 keyE0 hkeyE0
      rcases List.mem_append.1 hr0 with hr0xs | hr0r
      · obtain ⟨l0, f0, hl0, hk0, hcol0⟩ := roster_record_wf_spec r0 (hRxs r0 hr0xs)
        have hkeyE0' : keyE0 = Entry.str (l0 ++ ":" ++ f0) := by
          exact Option.some.inj (hkeyE0.symm.trans hk0)
        subst hkeyE0'
        by_cases heq : Entry.str (l0 ++ ":" ++ f0) = keyR
        · rw [heq, alistGet_alistSet_self]
        · rw [alistGet_alistSet_other _ _ _ _ heq,
            alistGet_alistSet_other _ _ _ _ (str_ne_key_of_no_colon hcolr).symm]
          · exact hfix r0 hr0xs _ hk0
      · have hr0r' : r0 = r := by simpa using hr0r
        subst hr0r'
        have hkeyE0' : keyE0 = keyR := by
          exact Option.some.inj (hkeyE0.symm.trans hkr)
        subst hkeyE0'
        rw [alistGet_alistSet_self]
    · intro l r0 hr0 hl0
      have hlcol : l.data.contains ':' = false := by
        rcases List.mem_append.1 hr0 with hr0xs | hr0r
        · obtain ⟨l0, f0, hl0', hk0, hcol0⟩ := roster_record_wf_spec r0 (hRxs r0 hr0xs)
          rw [hl0] at hl0'
          have : l = l0 := by
            have := Option.some.inj hl0'
            injection this
          rw [this]
          exact hcol0
        · have : r0 = r := by simpa using hr0r
          subst this
          rw [hl0] at hlr
          have : l = lr := by
            have := Option.some.inj hlr
            injection this
          rw [this]
          exact hcolr
      have hrev : (xs ++ [r]).reverse = r :: xs.reverse := by simp
      by_cases hbear : dictGet r (some "last") == some (Entry.str l)
      · refine ⟨r, ?_, ?_⟩
        · rw [hrev]
          simp [List.find?_cons, hbear]
        · have hleq : Entry.str lr = Entry.str l := by
            have := (beq_iff_eq.1 hbear)
            rw [hlr] at this
            exact Option.some.inj this
          rw [alistGet_alistSet_other _ _ _ _ (by rw [← hleq]; exact (str_ne_key_of_no_colon hcolr)),
            ← hleq, alistGet_alistSet_self, hkr, hkeyR]
      · have hr0xs : r0 ∈ xs := by
          rcases List.mem_append.1 hr0 with hr0xs | hr0r
          · exact hr0xs
          · exfalso
            have : r0 = r := by simpa using hr0r
            subst this
            rw [hl0] at hbear
            simp at hbear
        obtain ⟨r', hfind, hval⟩ := hlastn l r0 hr0xs hl0
        refine ⟨r', ?_, ?_⟩
        · rw [hrev]
          have hb : (dictGet r (some "last") == some (Entry.str l)) = false := by
            simpa using hbear
          simp only [List.find?_cons, hb]
          exact hfind
        · have hlne : Entry.str l ≠ Entry.str lr := by
            intro e
            have : l = lr := by injection e
            subst this
            rw [hlr] at hbear
            simp at hbear
          rw [alistGet_alistSet_other _ _ _ _ (str_ne_key_of_no_colon hlcol),
            alistGet_alistSet_other _ _ _ _ hlne]
          exact hval

/-- Witness for the amended C8: two records sharing last name "Smith"; the
bare last name resolves to the later record's canonical key. -/
theorem claim_C8_index_roster_fixed_point_witness :
    (index_roster
      [[(some "last", Entry.str "Smith"), (some "first", Entry.str "John"),
        (some "key", Entry.str "Smith:John")],
       [(some "last", Entry.str "Smith"), (some "first", Entry.str "Jane"),
        (some "key", Entry.str "Smith:Jane")]]).map
      (fun t => alistGet t.2.1 (Entry.str "Smith")) =
      some (some (Entry.str "Smith:Jane")) := by
  obtain ⟨tks, kd, info, hidx, hfix, hlastn⟩ :=
    claim_C8_index_roster_fixed_point
      [[(some "last", Entry.str "Smith"), (some "first", Entry.str "John"),
        (some "key", Entry.str "Smith:John")],
       [(some "last", Entry.str "Smith"), (some "first", Entry.str "Jane"),
        (some "key", Entry.str "Smith:Jane")]]
      (by decide)
  obtain ⟨r', hfind, hval⟩ :=
    hlastn "Smith"
      [(some "last", Entry.str "Smith"), (some "first", Entry.str "Jane"),
       (some "key", Entry.str "Smith:Jane")]
      (by decide) (by decide)
  have hr' : r' = [(some "last", Entry.str "Smith"),
      (some "first", Entry.str "Jane"), (some "key", Entry.str "Smith:Jane")] := by
    have hfind2 : ([[(some "last", Entry.str "Smith"), (some "first", Entry.str "John"),
        (some "key", Entry.str "Smith:John")],
       [(some "last", Entry.str "Smith"), (some "first", Entry.str "Jane"),
        (some "key", Entry.str "Smith:Jane")]] :
          List Record).reverse.find?
        (fun rec => dictGet rec (some "last") == some (Entry.str "Smith")) =
        some [(some "last", Entry.str "Smith"), (some "first", Entry.str "Jane"),
          (some "key", Entry.str "Smith:Jane")] := by decide
    exact Option.some.inj (hfind.symm.trans hfind2)
  rw [hidx]
  simp only [Option.map_some']
  rw [hval, hr']
  decide
